import Mathlib

/-!
Verification of the roster loader and query layer of `further_study/cohort_data2.py`.

The file is modelled as a list of its lines (`List String`).  Each Python
function is embedded as a Lean definition over that representation:

* `rstrip`, `splitFields`, `splitLine` embed `line.rstrip().split("|")`;
* `all_data` embeds the loader, returning `none` when the two-field
  destructuring `first, last, *rest` would raise on some line;
* the query functions (`all_houses`, `students_by_cohort`,
  `all_names_by_house`, `get_cohort_for`, `get_house_for`,
  `get_housemates_for`, `find_duped_last_names`) are embedded over the list
  of four-field records the loops destructure, with file-level wrappers
  composing them with the loader;
* Python `sorted` on strings is embedded as a stable insertion sort by the
  code-point lexicographic order `strLe`, and Python sets as `Finset String`.
-/

namespace CohortData

/-- The ASCII whitespace characters removed by Python `str.rstrip()`
(space, tab, newline, carriage return, vertical tab, form feed). -/
def isPyWhitespace (c : Char) : Bool :=
  c = ' ' || c = '\t' || c = '\n' || c = '\r' || c = '\x0b' || c = '\x0c'

/-- Embedding of `line.rstrip()`: remove trailing whitespace characters. -/
def rstrip (s : String) : String :=
  String.mk ((s.data.reverse.dropWhile isPyWhitespace).reverse)

/-- Embedding of Python `str.split("|")` on the character list of a string:
split at every pipe character, keeping empty fields, so that the empty
string yields the single field `[[]]`. -/
def splitFields : List Char → List (List Char)
  | [] => [[]]
  | c :: cs =>
    match splitFields cs with
    | f :: fs => if c = '|' then [] :: f :: fs else (c :: f) :: fs
    | [] => [[]]

/-- Embedding of `line.rstrip().split("|")` as used by the loader. -/
def splitLine (l : String) : List String :=
  (splitFields (rstrip l).data).map String.mk

/-- Joining fields back with a pipe separator; inverse of `splitFields`. -/
def joinPipe : List (List Char) → List Char
  | [] => []
  | [f] => f
  | f :: fs => f ++ '|' :: joinPipe fs

/-- Code-point lexicographic comparison of character lists, the order Python
uses to compare strings. -/
def lexLe : List Char → List Char → Bool
  | [], _ => true
  | _ :: _, [] => false
  | a :: as, b :: bs =>
    if a.toNat < b.toNat then true
    else if b.toNat < a.toNat then false
    else lexLe as bs

/-- Python string comparison `a <= b`: lexicographic by code point. -/
def strLe (a b : String) : Prop :=
  lexLe a.data b.data = true

instance : DecidableRel strLe :=
  fun a b => inferInstanceAs (Decidable (lexLe a.data b.data = true))

theorem lexLe_total (a b : List Char) : lexLe a b = true ∨ lexLe b a = true := by
  induction a generalizing b with
  | nil => exact Or.inl rfl
  | cons x xs ih =>
    cases b with
    | nil => exact Or.inr rfl
    | cons y ys =>
      by_cases h1 : x.toNat < y.toNat
      · exact Or.inl (by simp [lexLe, h1])
      · by_cases h2 : y.toNat < x.toNat
        · exact Or.inr (by simp [lexLe, h2])
        · rcases ih ys with h | h
          · exact Or.inl (by simp [lexLe, h1, h2, h])
          · exact Or.inr (by simp [lexLe, h1, h2, h])

theorem lexLe_trans {a b c : List Char} (hab : lexLe a b = true)
    (hbc : lexLe b c = true) : lexLe a c = true := by
  induction a generalizing b c with
  | nil => rfl
  | cons x xs ih =>
    cases b with
    | nil => simp [lexLe] at hab
    | cons y ys =>
      cases c with
      | nil => simp [lexLe] at hbc
      | cons z zs =>
        simp only [lexLe] at hab hbc ⊢
        by_cases h3 : y.toNat < z.toNat
        · by_cases h1 : x.toNat < y.toNat
          · simp [show x.toNat < z.toNat by omega]
          · by_cases h2 : y.toNat < x.toNat
            · simp [h1, h2] at hab
            · simp [show x.toNat < z.toNat by omega]
        · by_cases h4 : z.toNat < y.toNat
          · simp [h3, h4] at hbc
          · by_cases h1 : x.toNat < y.toNat
            · simp [show x.toNat < z.toNat by omega]
            · by_cases h2 : y.toNat < x.toNat
              · simp [h1, h2] at hab
              · have hxz : ¬ x.toNat < z.toNat := by omega
                have hzx : ¬ z.toNat < x.toNat := by omega
                simp only [h1, if_false, h2] at hab
                simp only [h3, if_false, h4] at hbc
                simp only [hxz, if_false, hzx, if_neg]
                exact ih (by simpa using hab) (by simpa using hbc)

instance : IsTotal String strLe :=
  ⟨fun a b => lexLe_total a.data b.data⟩

instance : IsTrans String strLe :=
  ⟨fun _ _ _ hab hbc => lexLe_trans hab hbc⟩

/-- Embedding of Python `sorted` on lists of strings: a stable sort by the
code-point lexicographic order. -/
def sortNames (l : List String) : List String :=
  List.insertionSort strLe l

theorem sortNames_perm (l : List String) : (sortNames l).Perm l :=
  List.perm_insertionSort strLe l

theorem sortNames_sorted (l : List String) : List.Sorted strLe (sortNames l) :=
  List.sorted_insertionSort strLe l

/-- Sequencing of a fallible step over a list: `some` of the mapped list when
every element succeeds, `none` as soon as one fails.  This models a Python
comprehension whose destructuring can raise. -/
def mapOption (f : α → Option β) : List α → Option (List β)
  | [] => some []
  | a :: as =>
    match f a, mapOption f as with
    | some b, some bs => some (b :: bs)
    | _, _ => none

theorem mapOption_eq_some_of_forall {f : α → Option β} :
    ∀ {l : List α}, (∀ a ∈ l, (f a).isSome) → ∃ bs, mapOption f l = some bs := by
  intro l
  induction l with
  | nil => exact fun _ => ⟨[], rfl⟩
  | cons a as ih =>
    intro h
    obtain ⟨b, hb⟩ := Option.isSome_iff_exists.mp (h a (List.mem_cons_self a as))
    obtain ⟨bs, hbs⟩ := ih (fun x hx => h x (List.mem_cons_of_mem a hx))
    exact ⟨b :: bs, by simp [mapOption, hb, hbs]⟩

theorem mapOption_eq_none_of_mem {f : α → Option β} :
    ∀ {l : List α}, ∀ a ∈ l, f a = none → mapOption f l = none := by
  intro l
  induction l with
  | nil => intro a h; simp at h
  | cons x xs ih =>
    intro a ha hfa
    rcases List.mem_cons.mp ha with rfl | ha'
    · simp [mapOption, hfa]
    · cases hx : f x <;> simp [mapOption, hx, ih a ha' hfa]

theorem mapOption_length {f : α → Option β} :
    ∀ {l : List α} {bs : List β}, mapOption f l = some bs → bs.length = l.length := by
  intro l
  induction l with
  | nil => intro bs h; simp [mapOption] at h; simp [← h]
  | cons a as ih =>
    intro bs h
    simp only [mapOption] at h
    cases hfa : f a with
    | none => rw [hfa] at h; simp at h
    | some b =>
      rw [hfa] at h
      cases hrec : mapOption f as with
      | none => rw [hrec] at h; simp at h
      | some cs =>
        rw [hrec] at h
        simp only [Option.some.injEq] at h
        subst h
        simp [ih hrec]

theorem mapOption_idx {f : α → Option β} :
    ∀ {l : List α} {bs : List β}, mapOption f l = some bs →
      ∀ (i : Nat) (a : α), l[i]? = some a → ∃ b, f a = some b ∧ bs[i]? = some b := by
  intro l
  induction l with
  | nil => intro bs _ i a ha; simp at ha
  | cons x xs ih =>
    intro bs h i a ha
    simp only [mapOption] at h
    cases hfx : f x with
    | none => rw [hfx] at h; simp at h
    | some b =>
      rw [hfx] at h
      cases hrec : mapOption f xs with
      | none => rw [hrec] at h; simp at h
      | some cs =>
        rw [hrec] at h
        simp only [Option.some.injEq] at h
        subst h
        cases i with
        | zero =>
          simp only [List.getElem?_cons_zero, Option.some.injEq] at ha
          subst ha
          exact ⟨b, hfx, by simp⟩
        | succ n =>
          simp only [List.getElem?_cons_succ] at ha ⊢
          exact ih hrec n a ha

/-- One step of the loader comprehension that destructures each split line
as `first, last, *rest` and emits the f-string merge of first and last
followed by the rest: a line must split into at least two fields; the first
two are joined with a single space, the rest are kept positionally.
`none` models the `ValueError` raised by the destructuring when a line has
fewer than two fields. -/
def mergeLine (l : String) : Option (String × List String) :=
  match splitLine l with
  | first :: last :: rest => some (first ++ " " ++ last, rest)
  | _ => none

/-- Embedding of `all_data(filename)`: one record per line in file order,
each line right-stripped, split on the pipe, and merged by `mergeLine`. -/
def all_data (file : List String) : Option (List (String × List String)) :=
  mapOption mergeLine file

/-- A four-field record `(full_name, house, adviser, cohort)` as destructured
by the query loops `for fullname, house, _, cohort_name in all_data(...)`. -/
abbrev Record := String × String × String × String

def full_name (r : Record) : String := r.1

def house (r : Record) : String := r.2.1

def adviser (r : Record) : String := r.2.2.1

def cohort (r : Record) : String := r.2.2.2

/-- Unpacking a loaded tuple into exactly four fields, as the query loops
destructure it; `none` models the `ValueError` on any other arity. -/
def destructure4 (t : String × List String) : Option Record :=
  match t with
  | (fn, [h, a, c]) => some (fn, h, a, c)
  | _ => none

/-- The loader followed by the four-field destructuring every query loop
performs on each record. -/
def parseRoster (file : List String) : Option (List Record) :=
  (all_data file).bind (fun d => mapOption destructure4 d)

/-- Embedding of `all_houses`: the set comprehension
over `all_data` keeping each non-empty `house` field. -/
def all_houses (records : List Record) : Finset String :=
  ((records.filter (fun r => house r ≠ "")).map house).toFinset

/-- The `student_data` comprehension of `students_by_cohort`: full name and
cohort of every record whose cohort is neither `"I"` nor `"G"`. -/
def student_data (records : List Record) : List (String × String) :=
  (records.filter (fun r => cohort r ∉ (["I", "G"] : List String))).map
    (fun r => (full_name r, cohort r))

/-- Embedding of `students_by_cohort(filename, cohort)`: ghosts and
instructors are filtered out first; with the filter `"All"` every remaining
name is returned, otherwise only names whose cohort equals the filter;
the result is sorted. -/
def students_by_cohort (records : List Record) (cohortArg : String) : List String :=
  if cohortArg = "All" then
    sortNames ((student_data records).map Prod.fst)
  else
    sortNames (((student_data records).filter (fun p => p.2 = cohortArg)).map Prod.fst)

/-- Calling `students_by_cohort` with the argument omitted: the Python
default parameter value is `"All"`. -/
def students_by_cohort_default (records : List Record) : List String :=
  students_by_cohort records "All"

/-- The list built by the `house == hn` append branches of the
`all_names_by_house` loop: full names of the records of house `hn`,
in file order. -/
def roster (records : List Record) (hn : String) : List String :=
  (records.filter (fun r => house r = hn)).map full_name

/-- The `ghosts` list of `all_names_by_house`: records with an empty house
whose cohort is `"G"`, in file order. -/
def ghostRoster (records : List Record) : List String :=
  (records.filter (fun r => house r = "" ∧ cohort r = "G")).map full_name

/-- The `instructors` list of `all_names_by_house`: records with an empty
house whose cohort is `"I"`, in file order. -/
def instructorRoster (records : List Record) : List String :=
  (records.filter (fun r => house r = "" ∧ cohort r = "I")).map full_name

/-- Embedding of `all_names_by_house`: the seven buckets, each sorted, in
the fixed order of the return statement in the source. -/
def all_names_by_house (records : List Record) : List (List String) :=
  [sortNames (roster records "Dumbledore\x27s Army"),
   sortNames (roster records "Gryffindor"),
   sortNames (roster records "Hufflepuff"),
   sortNames (roster records "Ravenclaw"),
   sortNames (roster records "Slytherin"),
   sortNames (ghostRoster records),
   sortNames (instructorRoster records)]

/-- Embedding of `get_cohort_for`: scan the records in order, return the
cohort of the first whose full name matches; falling off the loop returns
`None`. -/
def get_cohort_for : List Record → String → Option String
  | [], _ => none
  | r :: rs, name => if full_name r = name then some (cohort r) else get_cohort_for rs name

/-- Embedding of `get_house_for`: scan the records in order, return the
house of the first whose full name matches; falling off the loop returns
`None`. -/
def get_house_for : List Record → String → Option String
  | [], _ => none
  | r :: rs, name => if full_name r = name then some (house r) else get_house_for rs name

/-- Embedding of `get_housemates_for`: resolve the cohort and house of the target
(each possibly `None`), then collect every other full name whose house and
cohort both equal the resolved values.  `some (house r) = target` embeds
the Python comparison `house == target_house`, false whenever the target is
`None` and otherwise compares the strings. -/
def get_housemates_for (records : List Record) (name : String) : Finset String :=
  ((records.filter (fun r =>
      full_name r ≠ name ∧
      some (house r) = get_house_for records name ∧
      some (cohort r) = get_cohort_for records name)).map full_name).toFinset

/-- Modelled from the spec: `read_cohort_data` is called by
`find_duped_last_names` but is not among the source files.  Per the spec
(section 4.6) the function "must independently re-split the raw lines (it
needs the un-merged first/last fields)", splitting each line as originally
split before merging: right-stripped and split on the pipe. -/
def read_cohort_data (file : List String) : List (List String) :=
  file.map splitLine

/-- The loop destructuring `for first, last, *_ in read_cohort_data(...)`:
a row must have at least two fields; `none` models the `ValueError`
otherwise. -/
def firstTwo (fields : List String) : Option (String × String) :=
  match fields with
  | first :: last :: _ => some (first, last)
  | _ => none

/-- One iteration of the `find_duped_last_names` loop on the pair
`(dupes, seen_names)`: a last name already seen is added to `dupes`, and
every last name is added to `seen_names`. -/
def dupStep (acc : Finset String × Finset String) (last : String) :
    Finset String × Finset String :=
  (if last ∈ acc.2 then insert last acc.1 else acc.1, insert last acc.2)

/-- Embedding of `find_duped_last_names`: destructure each re-split row into
its first two fields, then fold the seen/dupes loop over the last names. -/
def find_duped_last_names (file : List String) : Option (Finset String) :=
  (mapOption firstTwo (read_cohort_data file)).map
    (fun pairs => ((pairs.map Prod.snd).foldl dupStep (∅, ∅)).1)

/-- File-level `all_houses(filename)`. -/
def all_houses_file (file : List String) : Option (Finset String) :=
  (parseRoster file).map all_houses

/-- File-level `students_by_cohort(filename, cohort)`. -/
def students_by_cohort_file (file : List String) (cohortArg : String) :
    Option (List String) :=
  (parseRoster file).map (fun records => students_by_cohort records cohortArg)

/-- File-level `all_names_by_house(filename)`. -/
def all_names_by_house_file (file : List String) : Option (List (List String)) :=
  (parseRoster file).map all_names_by_house

/-- File-level `get_cohort_for(filename, name)`: the outer `Option` models a
raised error, the inner one the `None` of a failed lookup. -/
def get_cohort_for_file (file : List String) (name : String) :
    Option (Option String) :=
  (parseRoster file).map (fun records => get_cohort_for records name)

/-- File-level `get_house_for(filename, name)`. -/
def get_house_for_file (file : List String) (name : String) :
    Option (Option String) :=
  (parseRoster file).map (fun records => get_house_for records name)

/-- File-level `get_housemates_for(filename, name)`. -/
def get_housemates_for_file (file : List String) (name : String) :
    Option (Finset String) :=
  (parseRoster file).map (fun records => get_housemates_for records name)

theorem get_cohort_for_eq_none_iff (records : List Record) (name : String) :
    get_cohort_for records name = none ↔ ∀ r ∈ records, full_name r ≠ name := by
  induction records with
  | nil => simp [get_cohort_for]
  | cons r rs ih =>
    by_cases h : full_name r = name
    · simp [get_cohort_for, h]
    · simp [get_cohort_for, h, ih]

theorem get_house_for_eq_none_iff (records : List Record) (name : String) :
    get_house_for records name = none ↔ ∀ r ∈ records, full_name r ≠ name := by
  induction records with
  | nil => simp [get_house_for]
  | cons r rs ih =>
    by_cases h : full_name r = name
    · simp [get_house_for, h]
    · simp [get_house_for, h, ih]

theorem get_cohort_for_first (pre : List Record) (r : Record) (post : List Record)
    (name : String) (hr : full_name r = name) (hpre : ∀ s ∈ pre, full_name s ≠ name) :
    get_cohort_for (pre ++ r :: post) name = some (cohort r) := by
  induction pre with
  | nil => simp [get_cohort_for, hr]
  | cons p ps ih =>
    have hp : full_name p ≠ name := hpre p (List.mem_cons_self p ps)
    simp only [List.cons_append, get_cohort_for, if_neg hp]
    exact ih (fun s hs => hpre s (List.mem_cons_of_mem p hs))

theorem get_house_for_first (pre : List Record) (r : Record) (post : List Record)
    (name : String) (hr : full_name r = name) (hpre : ∀ s ∈ pre, full_name s ≠ name) :
    get_house_for (pre ++ r :: post) name = some (house r) := by
  induction pre with
  | nil => simp [get_house_for, hr]
  | cons p ps ih =>
    have hp : full_name p ≠ name := hpre p (List.mem_cons_self p ps)
    simp only [List.cons_append, get_house_for, if_neg hp]
    exact ih (fun s hs => hpre s (List.mem_cons_of_mem p hs))

/-- C6: `get_cohort_for` (resp. `get_house_for`) returns the cohort
(resp. house) field of the first record in file order whose full name
equals the given name, and returns `none` — a value, not an exception —
exactly when no record matches. -/
theorem get_cohort_house_for_first_match (records : List Record) (name : String) :
    (get_cohort_for records name = none ↔ ∀ r ∈ records, full_name r ≠ name) ∧
    (get_house_for records name = none ↔ ∀ r ∈ records, full_name r ≠ name) ∧
    ∀ pre r post, records = pre ++ r :: post → full_name r = name →
      (∀ s ∈ pre, full_name s ≠ name) →
      get_cohort_for records name = some (cohort r) ∧
      get_house_for records name = some (house r) := by
  refine ⟨get_cohort_for_eq_none_iff records name,
          get_house_for_eq_none_iff records name, ?_⟩
  rintro pre r post rfl hr hpre
  exact ⟨get_cohort_for_first pre r post name hr hpre,
         get_house_for_first pre r post name hr hpre⟩

/-- C6 witness: on a two-record roster the lookups return the fields of the
first matching record, and the miss returns `none`. -/
theorem get_cohort_house_for_witness :
    get_cohort_for
        [("Harry Potter", "Gryffindor", "McGonagall", "Fall 2015"),
         ("Hannah Abbott", "Hufflepuff", "Sprout", "Winter 2016")] "Hannah Abbott"
      = some "Winter 2016" ∧
    get_house_for
        [("Harry Potter", "Gryffindor", "McGonagall", "Fall 2015"),
         ("Hannah Abbott", "Hufflepuff", "Sprout", "Winter 2016")] "Hannah Abbott"
      = some "Hufflepuff" :=
  (get_cohort_house_for_first_match
      [("Harry Potter", "Gryffindor", "McGonagall", "Fall 2015"),
       ("Hannah Abbott", "Hufflepuff", "Sprout", "Winter 2016")] "Hannah Abbott").2.2
    [("Harry Potter", "Gryffindor", "McGonagall", "Fall 2015")]
    ("Hannah Abbott", "Hufflepuff", "Sprout", "Winter 2016") [] rfl rfl (by decide)

/-- C7: membership in `all_houses` holds exactly for the non-empty strings
occurring as the house field of some record; the empty string is never in the
result. -/
theorem all_houses_spec (records : List Record) (x : String) :
    x ∈ all_houses records ↔ x ≠ "" ∧ ∃ r ∈ records, house r = x := by
  simp only [all_houses, List.mem_toFinset, List.mem_map, List.mem_filter,
    decide_eq_true_eq]
  constructor
  · rintro ⟨r, ⟨hr, hne⟩, rfl⟩
    exact ⟨hne, r, hr, rfl⟩
  · rintro ⟨hne, r, hr, rfl⟩
    exact ⟨r, ⟨hr, hne⟩, rfl⟩

/-- C1 (corrected): for a name that matches no record `get_housemates_for`
returns the empty set, and for every roster and name the result never
contains the queried name itself.  (The original claim also asserted an
empty result for ghost and instructor targets; that part is refuted by
`ghost_housemates_nonempty` below, since an absent house is the empty
string, which the house fields of other ghosts equal.) -/
theorem housemates_missing_target_empty_and_no_self (records : List Record)
    (name : String) :
    ((∀ r ∈ records, full_name r ≠ name) → get_housemates_for records name = ∅) ∧
    name ∉ get_housemates_for records name := by
  constructor
  · intro h
    have hhouse : get_house_for records name = none :=
      (get_house_for_eq_none_iff records name).mpr h
    simp [get_housemates_for, hhouse]
  · intro hmem
    simp only [get_housemates_for, List.mem_toFinset, List.mem_map,
      List.mem_filter, decide_eq_true_eq] at hmem
    obtain ⟨r, ⟨_, hcond⟩, hfn⟩ := hmem
    exact hcond.1 hfn

/-- C1 counterexample: on a roster of two ghosts, the first ghost has the
empty house and cohort `"G"`, yet its housemate set is not empty — the
the empty house and `"G"` cohort of the other ghost satisfy the filter. -/
theorem ghost_housemates_nonempty :
    get_house_for
        [("Nick Ghost", "", "X", "G"), ("Myrtle Ghost", "", "Y", "G")]
        "Nick Ghost" = some "" ∧
    get_cohort_for
        [("Nick Ghost", "", "X", "G"), ("Myrtle Ghost", "", "Y", "G")]
        "Nick Ghost" = some "G" ∧
    get_housemates_for
        [("Nick Ghost", "", "X", "G"), ("Myrtle Ghost", "", "Y", "G")]
        "Nick Ghost" ≠ (∅ : Finset String) := by
  refine ⟨rfl, rfl, ?_⟩
  decide

/-- C1 witness: a name matching no record has an empty housemate set and is
not a member of its own result. -/
theorem housemates_no_self_witness :
    get_housemates_for
        [("Harry Potter", "Gryffindor", "McGonagall", "Fall 2015")]
        "Balloonicorn" = ∅ ∧
    "Balloonicorn" ∉ get_housemates_for
        [("Harry Potter", "Gryffindor", "McGonagall", "Fall 2015")]
        "Balloonicorn" :=
  ⟨(housemates_missing_target_empty_and_no_self
      [("Harry Potter", "Gryffindor", "McGonagall", "Fall 2015")]
      "Balloonicorn").1 (by decide),
   (housemates_missing_target_empty_and_no_self
      [("Harry Potter", "Gryffindor", "McGonagall", "Fall 2015")]
      "Balloonicorn").2⟩

theorem countP_cohort_partition (records : List Record) :
    records.countP (fun r => cohort r ∉ (["I", "G"] : List String))
      + records.countP (fun r => cohort r = "G")
      + records.countP (fun r => cohort r = "I") = records.length := by
  induction records with
  | nil => simp
  | cons r rs ih =>
    simp only [List.countP_cons, List.length_cons]
    simp at ih ⊢
    by_cases hG : cohort r = "G" <;> by_cases hI : cohort r = "I" <;>
      simp [hG, hI] <;> omega

/-- C4: calling `students_by_cohort` with the argument omitted is the same
as calling it with `"All"`, and the unfiltered result has one entry per
record that is neither a ghost (cohort `"G"`) nor an instructor
(cohort `"I"`). -/
theorem students_by_cohort_all_length (records : List Record) :
    students_by_cohort_default records = students_by_cohort records "All" ∧
    (students_by_cohort records "All").length =
      records.length - records.countP (fun r => cohort r = "G")
        - records.countP (fun r => cohort r = "I") := by
  refine ⟨rfl, ?_⟩
  have e : students_by_cohort records "All"
      = sortNames ((student_data records).map Prod.fst) := by
    simp [students_by_cohort]
  have h1 : (students_by_cohort records "All").length
      = (student_data records).length := by
    rw [e, (sortNames_perm _).length_eq, List.length_map]
  have h2 : (student_data records).length
      = records.countP (fun r => cohort r ∉ (["I", "G"] : List String)) := by
    simp [student_data, List.countP_eq_length_filter]
  have h3 := countP_cohort_partition records
  omega

theorem student_filter_map_eq (records : List Record) (c : String) :
    ((student_data records).filter (fun p => p.2 = c)).map Prod.fst
      = ((records.filter (fun r => cohort r ∉ (["I", "G"] : List String))).filter
          (fun r => cohort r = c)).map full_name := by
  induction records with
  | nil => simp [student_data]
  | cons r rs ih =>
    by_cases hI : cohort r = "I"
    · simpa [student_data, List.filter_cons, hI] using ih
    · by_cases hG : cohort r = "G"
      · simpa [student_data, List.filter_cons, hI, hG] using ih
      · by_cases hc : cohort r = c
        · have hI2 : ¬(c = "I") := hc ▸ hI
          have hG2 : ¬(c = "G") := hc ▸ hG
          simpa [student_data, List.filter_cons, hc, hI2, hG2] using ih
        · simpa [student_data, List.filter_cons, hI, hG, hc] using ih

/-- C5: for any filter other than `"All"`, `students_by_cohort` returns a
permutation (duplicates retained) of the full names of exactly the
non-ghost non-instructor records whose cohort equals the filter, and the
result is sorted in the code-point lexicographic string order. -/
theorem students_by_cohort_filter_spec (records : List Record) (c : String)
    (hc : c ≠ "All") :
    (students_by_cohort records c).Perm
      (((records.filter (fun r => cohort r ∉ (["I", "G"] : List String))).filter
          (fun r => cohort r = c)).map full_name) ∧
    List.Sorted strLe (students_by_cohort records c) := by
  constructor
  · simp only [students_by_cohort, if_neg hc]
    rw [student_filter_map_eq records c]
    exact sortNames_perm _
  · simp only [students_by_cohort, if_neg hc]
    exact sortNames_sorted _

/-- C5 witness: the filter `"Fall 2015"` on a concrete three-record roster. -/
theorem students_by_cohort_filter_witness :
    (("Fall 2015" : String) ≠ "All") ∧
    ((students_by_cohort
        [("Ron Weasley", "Gryffindor", "McGonagall", "Fall 2015"),
         ("Harry Potter", "Gryffindor", "McGonagall", "Fall 2015"),
         ("Nick Ghost", "", "X", "G")] "Fall 2015").Perm
      ((([("Ron Weasley", "Gryffindor", "McGonagall", "Fall 2015"),
          ("Harry Potter", "Gryffindor", "McGonagall", "Fall 2015"),
          ("Nick Ghost", "", "X", "G")].filter
            (fun r => cohort r ∉ (["I", "G"] : List String))).filter
          (fun r => cohort r = "Fall 2015")).map full_name) ∧
     List.Sorted strLe (students_by_cohort
        [("Ron Weasley", "Gryffindor", "McGonagall", "Fall 2015"),
         ("Harry Potter", "Gryffindor", "McGonagall", "Fall 2015"),
         ("Nick Ghost", "", "X", "G")] "Fall 2015")) :=
  ⟨by decide,
   students_by_cohort_filter_spec
     [("Ron Weasley", "Gryffindor", "McGonagall", "Fall 2015"),
      ("Harry Potter", "Gryffindor", "McGonagall", "Fall 2015"),
      ("Nick Ghost", "", "X", "G")] "Fall 2015" (by decide)⟩

/-- C10: the literal filter `"All"` takes the unfiltered branch, so it
behaves exactly like the omitted argument; consequently a record whose
cohort field is literally `"All"` is never selected by the equality filter
of any other filter value, although its full name does appear in the
unfiltered result. -/
theorem students_by_cohort_all_sentinel (records : List Record) :
    students_by_cohort_default records = students_by_cohort records "All" ∧
    (∀ (c : String) (r : Record), c ≠ "All" → r ∈ records → cohort r = "All" →
      (full_name r, cohort r) ∉ (student_data records).filter (fun p => p.2 = c)) ∧
    ∀ r ∈ records, cohort r = "All" →
      full_name r ∈ students_by_cohort records "All" := by
  refine ⟨rfl, ?_, ?_⟩
  · intro c r hc _ hall hmem
    rw [List.mem_filter] at hmem
    have h2 : cohort r = c := by simpa using hmem.2
    exact hc (by rw [← h2, hall])
  · intro r hr hall
    have hp : (full_name r, cohort r) ∈ student_data records := by
      simp only [student_data, List.mem_map]
      refine ⟨r, ?_, rfl⟩
      rw [List.mem_filter]
      exact ⟨hr, by simp [hall]⟩
    have hname : full_name r ∈ (student_data records).map Prod.fst :=
      List.mem_map.mpr ⟨_, hp, rfl⟩
    have e : students_by_cohort records "All"
        = sortNames ((student_data records).map Prod.fst) := by
      simp [students_by_cohort]
    rw [e]
    exact ((sortNames_perm _).mem_iff).mpr hname

/-- C10 witness: a record with cohort `"All"` is not selected by the filter
`"Fall 2015"` but its name is in the unfiltered listing. -/
theorem students_by_cohort_all_sentinel_witness :
    ("A B", "All") ∉ (student_data [(("A B", "H", "x", "All") : Record)]).filter
        (fun p => p.2 = "Fall 2015") ∧
    "A B" ∈ students_by_cohort [(("A B", "H", "x", "All") : Record)] "All" :=
  ⟨(students_by_cohort_all_sentinel [("A B", "H", "x", "All")]).2.1
      "Fall 2015" ("A B", "H", "x", "All") (by decide) (by decide) rfl,
   (students_by_cohort_all_sentinel [("A B", "H", "x", "All")]).2.2
      ("A B", "H", "x", "All") (by decide) rfl⟩

/-- The five house names recognised by the `all_names_by_house` chain. -/
def canonicalHouses : List String :=
  ["Dumbledore\x27s Army", "Gryffindor", "Hufflepuff", "Ravenclaw", "Slytherin"]

theorem buckets_count (a : String) : ∀ records : List Record,
    (∀ r ∈ records, house r ∈ canonicalHouses ∨
      (house r = "" ∧ (cohort r = "G" ∨ cohort r = "I"))) →
    List.count a
      (roster records "Dumbledore\x27s Army" ++ (roster records "Gryffindor" ++
       (roster records "Hufflepuff" ++ (roster records "Ravenclaw" ++
       (roster records "Slytherin" ++ (ghostRoster records ++
        instructorRoster records))))))
      = List.count a (records.map full_name) := by
  intro records
  induction records with
  | nil => intro _; simp [roster, ghostRoster, instructorRoster]
  | cons r rs ih =>
    intro h
    have hr := h r (List.mem_cons_self r rs)
    have ih2 := ih (fun s hs => h s (List.mem_cons_of_mem r hs))
    rw [show house r ∈ canonicalHouses ↔ (house r = "Dumbledore\x27s Army" ∨
        house r = "Gryffindor" ∨ house r = "Hufflepuff" ∨ house r = "Ravenclaw" ∨
        house r = "Slytherin") by simp [canonicalHouses]] at hr
    rcases hr with (h1 | h1 | h1 | h1 | h1) | ⟨h1, (h2 | h2)⟩ <;>
      by_cases hfa : full_name r = a <;>
      simp only [roster, ghostRoster, instructorRoster, List.filter_cons,
        List.count_append, List.map_cons, List.count_cons] at ih2 ⊢ <;>
      first
        | (simp [h1, h2, hfa, List.count_cons] at ih2 ⊢ <;> omega)
        | (simp [h1, hfa, List.count_cons] at ih2 ⊢ <;> omega)

theorem buckets_perm (records : List Record)
    (h : ∀ r ∈ records, house r ∈ canonicalHouses ∨
      (house r = "" ∧ (cohort r = "G" ∨ cohort r = "I"))) :
    (roster records "Dumbledore\x27s Army" ++ (roster records "Gryffindor" ++
     (roster records "Hufflepuff" ++ (roster records "Ravenclaw" ++
     (roster records "Slytherin" ++ (ghostRoster records ++
      instructorRoster records)))))).Perm (records.map full_name) := by
  rw [List.perm_iff_count]
  intro a
  exact buckets_count a records h

/-- C3: on a roster whose every record carries one of the five canonical
house names or an empty house with a `"G"`/`"I"` sentinel cohort,
`all_names_by_house` returns exactly seven buckets in the fixed order,
their concatenation is a permutation of the full names of all records
(each record lands in exactly one bucket), and each bucket is sorted. -/
theorem all_names_by_house_spec (records : List Record)
    (h : ∀ r ∈ records, house r ∈ canonicalHouses ∨
      (house r = "" ∧ (cohort r = "G" ∨ cohort r = "I"))) :
    (all_names_by_house records).length = 7 ∧
    ((all_names_by_house records).flatten).Perm (records.map full_name) ∧
    ∀ b ∈ all_names_by_house records, List.Sorted strLe b := by
  refine ⟨rfl, ?_, ?_⟩
  · have hp : (all_names_by_house records).flatten
        = sortNames (roster records "Dumbledore\x27s Army") ++
          (sortNames (roster records "Gryffindor") ++
          (sortNames (roster records "Hufflepuff") ++
          (sortNames (roster records "Ravenclaw") ++
          (sortNames (roster records "Slytherin") ++
          (sortNames (ghostRoster records) ++
           sortNames (instructorRoster records)))))) := by
      simp [all_names_by_house]
    rw [hp]
    refine List.Perm.trans ?_ (buckets_perm records h)
    exact List.Perm.append (sortNames_perm _) (List.Perm.append (sortNames_perm _)
      (List.Perm.append (sortNames_perm _) (List.Perm.append (sortNames_perm _)
        (List.Perm.append (sortNames_perm _) (List.Perm.append (sortNames_perm _)
          (sortNames_perm _))))))
  · intro b hb
    simp only [all_names_by_house, List.mem_cons, List.not_mem_nil, or_false] at hb
    rcases hb with rfl | rfl | rfl | rfl | rfl | rfl | rfl <;>
      exact sortNames_sorted _

/-- C3 witness: a two-record roster with one Gryffindor student and one
ghost satisfies the canonical-shape hypothesis. -/
theorem all_names_by_house_witness :
    (∀ r ∈ ([("Harry Potter", "Gryffindor", "McGonagall", "Fall 2015"),
             ("Nick Ghost", "", "X", "G")] : List Record),
        house r ∈ canonicalHouses ∨
        (house r = "" ∧ (cohort r = "G" ∨ cohort r = "I"))) ∧
    ((all_names_by_house
        [("Harry Potter", "Gryffindor", "McGonagall", "Fall 2015"),
         ("Nick Ghost", "", "X", "G")]).length = 7 ∧
     ((all_names_by_house
        [("Harry Potter", "Gryffindor", "McGonagall", "Fall 2015"),
         ("Nick Ghost", "", "X", "G")]).flatten).Perm
       ([("Harry Potter", "Gryffindor", "McGonagall", "Fall 2015"),
         ("Nick Ghost", "", "X", "G")].map full_name) ∧
     ∀ b ∈ all_names_by_house
        [("Harry Potter", "Gryffindor", "McGonagall", "Fall 2015"),
         ("Nick Ghost", "", "X", "G")], List.Sorted strLe b) :=
  ⟨by decide,
   all_names_by_house_spec
     [("Harry Potter", "Gryffindor", "McGonagall", "Fall 2015"),
      ("Nick Ghost", "", "X", "G")] (by decide)⟩

theorem mem_iff_count_ne_zero {x : String} {as : List String} :
    x ∈ as ↔ as.count x ≠ 0 := by
  simp [Ne, List.count_eq_zero]

theorem foldl_dupStep_seen : ∀ (l : List String)
    (acc : Finset String × Finset String) (x : String),
    x ∈ (l.foldl dupStep acc).2 ↔ x ∈ acc.2 ∨ x ∈ l := by
  intro l
  induction l with
  | nil => intro acc x; simp
  | cons a as ih =>
    intro acc x
    rw [List.foldl_cons, ih]
    simp only [dupStep, Finset.mem_insert, List.mem_cons]
    tauto

theorem foldl_dupStep_dupes : ∀ (l : List String)
    (acc : Finset String × Finset String) (x : String),
    x ∈ (l.foldl dupStep acc).1 ↔
      x ∈ acc.1 ∨ (x ∈ acc.2 ∧ x ∈ l) ∨ 2 ≤ l.count x := by
  intro l
  induction l with
  | nil => intro acc x; simp
  | cons a as ih =>
    intro acc x
    rw [List.foldl_cons, ih]
    by_cases hxa : x = a
    · subst hxa
      rw [List.count_cons_self]
      by_cases hx2 : x ∈ acc.2
      · simp only [dupStep, if_pos hx2, Finset.mem_insert, List.mem_cons]
        constructor
        · rintro ((h | h) | ⟨_, hmm⟩ | h)
          · exact Or.inr (Or.inl ⟨hx2, Or.inl trivial⟩)
          · exact Or.inl h
          · exact Or.inr (Or.inl ⟨hx2, Or.inl trivial⟩)
          · exact Or.inr (Or.inr (by omega))
        · rintro (h | _ | h)
          · exact Or.inl (Or.inr h)
          · exact Or.inl (Or.inl trivial)
          · rcases Nat.lt_or_ge (as.count x) 2 with hlt | hge
            · have hne : as.count x ≠ 0 := by omega
              exact Or.inr (Or.inl ⟨Or.inl trivial, mem_iff_count_ne_zero.mpr hne⟩)
            · exact Or.inr (Or.inr hge)
      · simp only [dupStep, if_neg hx2, Finset.mem_insert, List.mem_cons]
        constructor
        · rintro (h | ⟨(h2 | h2), hmm⟩ | h)
          · exact Or.inl h
          · have hne := mem_iff_count_ne_zero.mp hmm
            exact Or.inr (Or.inr (by omega))
          · exact absurd h2 hx2
          · exact Or.inr (Or.inr (by omega))
        · rintro (h | ⟨h2, _⟩ | h)
          · exact Or.inl h
          · exact absurd h2 hx2
          · have hne : as.count x ≠ 0 := by omega
            exact Or.inr (Or.inl ⟨Or.inl trivial, mem_iff_count_ne_zero.mpr hne⟩)
    · rw [List.count_cons_of_ne hxa]
      by_cases hmem : a ∈ acc.2
      · simp only [dupStep, if_pos hmem, Finset.mem_insert, List.mem_cons]
        constructor
        · rintro ((h | h) | ⟨(h2 | h2), hmm⟩ | h)
          · exact absurd h hxa
          · exact Or.inl h
          · exact absurd h2 hxa
          · exact Or.inr (Or.inl ⟨h2, Or.inr hmm⟩)
          · exact Or.inr (Or.inr h)
        · rintro (h | ⟨h2, (h3 | h3)⟩ | h)
          · exact Or.inl (Or.inr h)
          · exact absurd h3 hxa
          · exact Or.inr (Or.inl ⟨Or.inr h2, h3⟩)
          · exact Or.inr (Or.inr h)
      · simp only [dupStep, if_neg hmem, Finset.mem_insert, List.mem_cons]
        constructor
        · rintro (h | ⟨(h2 | h2), hmm⟩ | h)
          · exact Or.inl h
          · exact absurd h2 hxa
          · exact Or.inr (Or.inl ⟨h2, Or.inr hmm⟩)
          · exact Or.inr (Or.inr h)
        · rintro (h | ⟨h2, (h3 | h3)⟩ | h)
          · exact Or.inl h
          · exact absurd h3 hxa
          · exact Or.inr (Or.inl ⟨Or.inr h2, h3⟩)
          · exact Or.inr (Or.inr h)

theorem firstTwo_eq_some {fields : List String} {p : String × String}
    (h : firstTwo fields = some p) : ∃ rest, fields = p.1 :: p.2 :: rest := by
  cases fields with
  | nil => simp [firstTwo] at h
  | cons a t =>
    cases t with
    | nil => simp [firstTwo] at h
    | cons b rest =>
      simp only [firstTwo, Option.some.injEq] at h
      exact ⟨rest, by rw [← h]⟩

theorem mapOption_firstTwo_snd : ∀ (file : List String)
    (pairs : List (String × String)),
    mapOption firstTwo (read_cohort_data file) = some pairs →
    pairs.map Prod.snd = file.filterMap (fun l => (splitLine l)[1]?) := by
  intro file
  induction file with
  | nil =>
    intro pairs h
    simp only [read_cohort_data, List.map_nil, mapOption, Option.some.injEq] at h
    simp [← h]
  | cons l ls ih =>
    intro pairs h
    simp only [read_cohort_data, List.map_cons, mapOption] at h
    cases hft : firstTwo (splitLine l) with
    | none => rw [hft] at h; simp at h
    | some p =>
      rw [hft] at h
      cases hrec : mapOption firstTwo (List.map splitLine ls) with
      | none => rw [hrec] at h; simp at h
      | some ps =>
        rw [hrec] at h
        simp only [Option.some.injEq] at h
        subst h
        obtain ⟨rest, hfields⟩ := firstTwo_eq_some hft
        have hsnd : (splitLine l)[1]? = some p.2 := by rw [hfields]; simp
        have hrec2 : mapOption firstTwo (read_cohort_data ls) = some ps := by
          simpa [read_cohort_data] using hrec
        simp [List.filterMap_cons, hsnd, ih ps hrec2]

/-- C2: whenever every re-split line destructures into at least two fields,
`find_duped_last_names` returns exactly the set of last-name fields (the
second pipe-delimited field of a line) occurring on two or more lines. -/
theorem find_duped_last_names_spec (file : List String)
    (pairs : List (String × String))
    (h : mapOption firstTwo (read_cohort_data file) = some pairs) :
    ∃ S, find_duped_last_names file = some S ∧
      (∀ x, x ∈ S ↔ 2 ≤ (pairs.map Prod.snd).count x) ∧
      pairs.map Prod.snd = file.filterMap (fun l => (splitLine l)[1]?) := by
  refine ⟨((pairs.map Prod.snd).foldl dupStep (∅, ∅)).1, ?_, ?_, ?_⟩
  · simp [find_duped_last_names, h]
  · intro x
    rw [foldl_dupStep_dupes]
    simp
  · exact mapOption_firstTwo_snd file pairs h

/-- C2 witness: the Fred/George Weasley roster re-splits cleanly, and the
resulting duplicate set consists of the names occurring at least twice. -/
theorem find_duped_last_names_witness :
    (mapOption firstTwo (read_cohort_data
        ["Fred|Weasley|Gryffindor|McGonagall|Fall 2015",
         "George|Weasley|Gryffindor|McGonagall|Fall 2015"])
      = some [("Fred", "Weasley"), ("George", "Weasley")]) ∧
    (∃ S, find_duped_last_names
        ["Fred|Weasley|Gryffindor|McGonagall|Fall 2015",
         "George|Weasley|Gryffindor|McGonagall|Fall 2015"] = some S ∧
      (∀ x, x ∈ S ↔
        2 ≤ ([("Fred", "Weasley"), ("George", "Weasley")].map Prod.snd).count x) ∧
      [("Fred", "Weasley"), ("George", "Weasley")].map Prod.snd =
        ["Fred|Weasley|Gryffindor|McGonagall|Fall 2015",
         "George|Weasley|Gryffindor|McGonagall|Fall 2015"].filterMap
          (fun l => (splitLine l)[1]?)) :=
  ⟨by decide,
   find_duped_last_names_spec
     ["Fred|Weasley|Gryffindor|McGonagall|Fall 2015",
      "George|Weasley|Gryffindor|McGonagall|Fall 2015"]
     [("Fred", "Weasley"), ("George", "Weasley")] (by decide)⟩

theorem head?_dropWhile_false {p : Char → Bool} : ∀ (l : List Char) {c : Char},
    (l.dropWhile p).head? = some c → p c = false := by
  intro l
  induction l with
  | nil => intro c h; simp at h
  | cons a as ih =>
    intro c h
    rw [List.dropWhile_cons] at h
    by_cases hp : p a
    · rw [if_pos hp] at h
      exact ih h
    · rw [if_neg hp] at h
      simp only [List.head?_cons, Option.some.injEq] at h
      subst h
      cases hpa : p a
      · rfl
      · exact absurd hpa hp

theorem rstrip_spec (s : String) :
    ∃ t : List Char, s.data = (rstrip s).data ++ t ∧
      (∀ c ∈ t, isPyWhitespace c = true) ∧
      ∀ c, (rstrip s).data.getLast? = some c → isPyWhitespace c = false := by
  refine ⟨(s.data.reverse.takeWhile isPyWhitespace).reverse, ?_, ?_, ?_⟩
  · show s.data = (s.data.reverse.dropWhile isPyWhitespace).reverse ++ _
    calc s.data = s.data.reverse.reverse := (List.reverse_reverse _).symm
    _ = (s.data.reverse.takeWhile isPyWhitespace ++
          s.data.reverse.dropWhile isPyWhitespace).reverse := by
        rw [List.takeWhile_append_dropWhile]
    _ = (s.data.reverse.dropWhile isPyWhitespace).reverse ++
          (s.data.reverse.takeWhile isPyWhitespace).reverse := by
        rw [List.reverse_append]
  · intro c hc
    rw [List.mem_reverse] at hc
    exact List.mem_takeWhile_imp hc
  · intro c hc
    show isPyWhitespace c = false
    have : ((s.data.reverse.dropWhile isPyWhitespace).reverse).getLast? = some c := hc
    rw [List.getLast?_reverse] at this
    exact head?_dropWhile_false _ this

theorem splitFields_ne_nil : ∀ cs : List Char, splitFields cs ≠ [] := by
  intro cs
  cases cs with
  | nil => simp [splitFields]
  | cons c cs2 =>
    simp only [splitFields]
    cases h : splitFields cs2 with
    | nil => simp
    | cons f fs => by_cases hc : c = '|' <;> simp [hc]

theorem joinPipe_splitFields : ∀ cs : List Char, joinPipe (splitFields cs) = cs := by
  intro cs
  induction cs with
  | nil => rfl
  | cons c cs2 ih =>
    simp only [splitFields]
    cases h : splitFields cs2 with
    | nil => exact absurd h (splitFields_ne_nil cs2)
    | cons f fs =>
      rw [h] at ih
      by_cases hc : c = '|'
      · subst hc
        simp [joinPipe, ih]
      · have hred : joinPipe ((c :: f) :: fs) = c :: cs2 := by
          cases fs with
          | nil =>
            simp only [joinPipe] at ih ⊢
            rw [ih]
          | cons g gs =>
            simp only [joinPipe, List.cons_append] at ih ⊢
            rw [ih]
        simpa [hc] using hred

theorem splitFields_no_pipe : ∀ (cs : List Char) (f : List Char),
    f ∈ splitFields cs → '|' ∉ f := by
  intro cs
  induction cs with
  | nil =>
    intro f hf
    simp only [splitFields, List.mem_cons, List.not_mem_nil, or_false] at hf
    simp [hf]
  | cons c cs2 ih =>
    intro f hf
    simp only [splitFields] at hf
    cases h : splitFields cs2 with
    | nil => exact absurd h (splitFields_ne_nil cs2)
    | cons g gs =>
      rw [h] at hf
      by_cases hc : c = '|'
      · subst hc
        simp [List.mem_cons] at hf
        rcases hf with rfl | hfg | hf2
        · simp
        · rw [hfg]
          exact ih g (h ▸ List.mem_cons_self g gs)
        · exact ih f (h ▸ List.mem_cons.mpr (Or.inr hf2))
      · simp [hc, List.mem_cons] at hf
        rcases hf with rfl | hf2
        · intro hmem
          rcases List.mem_cons.mp hmem with he | hmem2
          · exact hc he.symm
          · exact ih g (h ▸ List.mem_cons_self g gs) hmem2
        · exact ih f (h ▸ List.mem_cons.mpr (Or.inr hf2))

theorem mergeLine_eq_some {l : String} {b : String × List String}
    (h : mergeLine l = some b) :
    ∃ first last rest, splitLine l = first :: last :: rest ∧
      b = (first ++ " " ++ last, rest) := by
  unfold mergeLine at h
  cases hs : splitLine l with
  | nil => rw [hs] at h; simp at h
  | cons f t =>
    cases t with
    | nil => rw [hs] at h; simp at h
    | cons s rest =>
      rw [hs] at h
      simp only [Option.some.injEq] at h
      exact ⟨f, s, rest, rfl, h.symm⟩

/-- C8: a successful load has one record per line in file order; each line,
after trailing whitespace is removed (`rstrip` leaves a whitespace-free-tail
prefix and drops only whitespace), is split on the literal pipe character
(`splitFields` is inverted by `joinPipe` and yields pipe-free fields), the
first two fields are joined with a single space into the full name, and the
remaining fields are kept positionally. -/
theorem all_data_spec (file : List String) (data : List (String × List String))
    (h : all_data file = some data) :
    data.length = file.length ∧
    (∀ (i : Nat) (l : String), file[i]? = some l →
      ∃ first last rest, splitLine l = first :: last :: rest ∧
        data[i]? = some (first ++ " " ++ last, rest)) ∧
    (∀ s : String, ∃ t : List Char, s.data = (rstrip s).data ++ t ∧
      (∀ c ∈ t, isPyWhitespace c = true) ∧
      ∀ c, (rstrip s).data.getLast? = some c → isPyWhitespace c = false) ∧
    (∀ cs : List Char, joinPipe (splitFields cs) = cs ∧
      ∀ f ∈ splitFields cs, '|' ∉ f) := by
  refine ⟨mapOption_length h, ?_, rstrip_spec,
    fun cs => ⟨joinPipe_splitFields cs, splitFields_no_pipe cs⟩⟩
  intro i l hl
  obtain ⟨b, hb, hidx⟩ := mapOption_idx h i l hl
  obtain ⟨first, last, rest, hsplit, hbeq⟩ := mergeLine_eq_some hb
  exact ⟨first, last, rest, hsplit, by rw [hidx, hbeq]⟩

/-- C8 witness: loading a concrete one-line file produces the merged record,
and the record count matches the line count. -/
theorem all_data_spec_witness :
    all_data ["Harry|Potter|Gryffindor|McGonagall|Fall 2015"] =
      some [("Harry Potter", ["Gryffindor", "McGonagall", "Fall 2015"])] ∧
    ([("Harry Potter", ["Gryffindor", "McGonagall", "Fall 2015"])]
        : List (String × List String)).length =
      ["Harry|Potter|Gryffindor|McGonagall|Fall 2015"].length :=
  ⟨by decide,
   (all_data_spec ["Harry|Potter|Gryffindor|McGonagall|Fall 2015"]
      [("Harry Potter", ["Gryffindor", "McGonagall", "Fall 2015"])]
      (by decide)).1⟩

theorem mergeLine_isSome (l : String) (h2 : 2 ≤ (splitLine l).length) :
    (mergeLine l).isSome := by
  unfold mergeLine
  cases hs : splitLine l with
  | nil => rw [hs] at h2; simp at h2
  | cons f t =>
    cases t with
    | nil => rw [hs] at h2; simp at h2
    | cons s rest => simp

theorem mergeLine_eq_none (l : String) (h2 : (splitLine l).length < 2) :
    mergeLine l = none := by
  unfold mergeLine
  cases hs : splitLine l with
  | nil => rfl
  | cons f t =>
    cases t with
    | nil => rfl
    | cons s rest =>
      rw [hs] at h2
      exact absurd h2 (by simp only [List.length_cons]; omega)

/-- C9: when every line splits into at least two fields the destructuring
in the loader succeeds; a line with fewer than two fields (for example a
blank line, whose split is the single empty field) makes `all_data` fail,
and the failure propagates through every file-level query instead of
producing a value. -/
theorem all_data_failure_spec (file : List String) :
    ((∀ l ∈ file, 2 ≤ (splitLine l).length) → ∃ data, all_data file = some data) ∧
    (∀ l ∈ file, (splitLine l).length < 2 →
      all_data file = none ∧
      all_houses_file file = none ∧
      (∀ c, students_by_cohort_file file c = none) ∧
      all_names_by_house_file file = none ∧
      (∀ name, get_cohort_for_file file name = none ∧
        get_house_for_file file name = none ∧
        get_housemates_for_file file name = none) ∧
      find_duped_last_names file = none) := by
  constructor
  · intro h
    exact mapOption_eq_some_of_forall (fun l hl => mergeLine_isSome l (h l hl))
  · intro l hl hshort
    have hnone : all_data file = none :=
      mapOption_eq_none_of_mem l hl (mergeLine_eq_none l hshort)
    have hparse : parseRoster file = none := by simp [parseRoster, hnone]
    have hft : firstTwo (splitLine l) = none := by
      unfold firstTwo
      cases hs : splitLine l with
      | nil => rfl
      | cons f t =>
        cases t with
        | nil => rfl
        | cons s rest =>
          rw [hs] at hshort
          exact absurd hshort (by simp only [List.length_cons]; omega)
    have hdup : mapOption firstTwo (read_cohort_data file) = none :=
      mapOption_eq_none_of_mem (splitLine l)
        (by simpa [read_cohort_data] using List.mem_map_of_mem splitLine hl) hft
    exact ⟨hnone,
      by simp [all_houses_file, hparse],
      fun c => by simp [students_by_cohort_file, hparse],
      by simp [all_names_by_house_file, hparse],
      fun name => ⟨by simp [get_cohort_for_file, hparse],
        by simp [get_house_for_file, hparse],
        by simp [get_housemates_for_file, hparse]⟩,
      by simp [find_duped_last_names, hdup]⟩

/-- C9 witness: a file containing a blank line fails to load. -/
theorem all_data_failure_witness :
    ("" ∈ ["Harry|Potter|Gryffindor|McGonagall|Fall 2015", ""]) ∧
    ((splitLine "").length < 2) ∧
    all_data ["Harry|Potter|Gryffindor|McGonagall|Fall 2015", ""] = none :=
  ⟨by decide, by decide,
   ((all_data_failure_spec
      ["Harry|Potter|Gryffindor|McGonagall|Fall 2015", ""]).2 ""
      (by decide) (by decide)).1⟩

end CohortData
